import Mathlib

/-!
Verification of the Portfolio_Tracker repository against its specification.

The Python modules `src/historical_data.py`, `src/portfolio_performance.py`
and `src/performance_analytics.py` are shallowly embedded below:

* dates (strings `YYYY-MM-DD`, whose lexicographic order is chronological)
  are modelled as `Nat` day numbers;
* prices and returns are modelled as exact rationals `ℚ`;
* the sqlite tables `price_history` and `symbol_metadata` are modelled as
  lists of rows; the sqlite `INSERT` statement issued by
  `pandas.DataFrame.to_sql(if_exists='append')` fails on a primary-key
  conflict, which is modelled by `Except`;
* float `NaN` and `±inf` produced by pandas/numpy divisions are modelled by
  the four-valued type `FVal`;
* `numpy.sqrt` is irrational on most inputs, so it is abstracted as an
  explicit function parameter `sqrtA : ℚ → ℚ`; none of the verified claims
  depends on its value.
-/

namespace PortfolioTracker

/-! ### Small list helpers (SQL MIN/MAX, pandas mean/var/min) -/

/-- SQL `MIN(x)` over a list of naturals: `NULL` (`none`) on the empty list. -/
def listMinN : List Nat → Option Nat
  | [] => none
  | d :: ds => some (ds.foldl Nat.min d)

/-- SQL `MAX(x)` over a list of naturals: `NULL` (`none`) on the empty list. -/
def listMaxN : List Nat → Option Nat
  | [] => none
  | d :: ds => some (ds.foldl Nat.max d)

/-- Minimum of a list of rationals, `none` on the empty list
(pandas `Series.min` on an all-`NaN`-free series). -/
def listMinQ : List ℚ → Option ℚ
  | [] => none
  | d :: ds => some (ds.foldl min d)

/-- Maximum of a list of rationals, `none` on the empty list. -/
def listMaxQ : List ℚ → Option ℚ
  | [] => none
  | d :: ds => some (ds.foldl max d)

/-- Mean of a list of rationals (junk value `0` on the empty list; every use
site guards non-emptiness exactly where the Python code does). -/
def meanQ (xs : List ℚ) : ℚ := xs.sum / xs.length

/-- Population variance, `numpy.var` with its default `ddof=0`. -/
def popVar (xs : List ℚ) : ℚ :=
  (xs.map (fun x => (x - meanQ xs) ^ 2)).sum / xs.length

/-- Sample variance (`ddof=1`), the square of `pandas.Series.std`;
meaningful only when the list has at least two elements. -/
def sampleVar (xs : List ℚ) : ℚ :=
  (xs.map (fun x => (x - meanQ xs) ^ 2)).sum / (xs.length - 1 : ℚ)

/-- Sample covariance (`numpy.cov(x, y)[0, 1]`, default `ddof=1`). -/
def sampleCov (xs ys : List ℚ) : ℚ :=
  ((xs.zip ys).map (fun p => (p.1 - meanQ xs) * (p.2 - meanQ ys))).sum /
    (xs.length - 1 : ℚ)

/-! ### IEEE-style non-finite values

Pandas/numpy divisions can produce `NaN` (`0/0`) and `±inf` (`x/0`, `x ≠ 0`).
`FVal` is a rational with those three extra points. -/

inductive FVal where
  | fin : ℚ → FVal
  | pinf : FVal
  | ninf : FVal
  | nan : FVal
deriving DecidableEq, Repr

/-- Division as numpy performs it on float arrays. -/
def divF (num den : ℚ) : FVal :=
  if den ≠ 0 then .fin (num / den)
  else if 0 < num then .pinf
  else if num < 0 then .ninf
  else .nan

/-- Multiplication of a float value by the positive constant `100`. -/
def scale100 : FVal → FVal
  | .fin x => .fin (x * 100)
  | e => e

/-- Float subtraction `a - b` (the combinations the embedded code can reach). -/
def FVal.sub : FVal → FVal → FVal
  | .fin x, .fin y => .fin (x - y)
  | .nan, _ => .nan
  | _, .nan => .nan
  | .pinf, .pinf => .nan
  | .ninf, .ninf => .nan
  | .pinf, _ => .pinf
  | .ninf, _ => .ninf
  | .fin _, .pinf => .ninf
  | .fin _, .ninf => .pinf

/-- Float absolute value. -/
def FVal.absF : FVal → FVal
  | .fin x => .fin |x|
  | .nan => .nan
  | _ => .pinf

/-- A missing pandas cell (`NaN`) as a float value. -/
def toFVal : Option ℚ → FVal
  | some x => .fin x
  | none => .nan

/-- The Python comparison `v <= 0` on a float (False on `NaN`). -/
def FVal.leZeroB : FVal → Bool
  | .fin x => decide (x ≤ 0)
  | .ninf => true
  | _ => false

/-- `pandas.Series.min` with its default `skipna=True`: `NaN` entries are
ignored; the minimum of nothing (or of only `NaN`s) is `NaN`. -/
def seriesMin (l : List FVal) : FVal :=
  if l.any (fun v => match v with | .ninf => true | _ => false) then .ninf
  else
    match listMinQ (l.filterMap (fun v => match v with
                                          | .fin x => some x
                                          | _ => none)) with
    | some m => .fin m
    | none => if l.any (fun v => match v with | .pinf => true | _ => false)
              then .pinf else .nan

/-! ### `src/historical_data.py`: the sqlite store

`price_history (symbol, date PRIMARY KEY, …, close, …)` and
`symbol_metadata (symbol PRIMARY KEY, first_date, last_date, total_records)`. -/

/-- One fetched price observation (the columns the claims depend on). -/
structure PricePoint where
  pdate : Nat
  close : ℚ
deriving DecidableEq, Repr

/-- A row of the `price_history` table. -/
structure Row where
  symbol : String
  pdate : Nat
  close : ℚ
deriving DecidableEq, Repr

/-- A row of the `symbol_metadata` table; `first_date`/`last_date` are
nullable SQL columns. -/
structure SymbolMeta where
  first_date : Option Nat
  last_date : Option Nat
  total_records : Nat
deriving DecidableEq, Repr

/-- The database state. -/
structure DB where
  price_history : List Row
  symbol_metadata : List (String × SymbolMeta)
deriving DecidableEq, Repr

def emptyDB : DB := ⟨[], []⟩

/-- `SELECT * FROM price_history WHERE symbol = ?`. -/
def rowsFor (t : List Row) (s : String) : List Row :=
  t.filter (fun r => r.symbol == s)

/-- The dates stored for a symbol. -/
def datesFor (t : List Row) (s : String) : List Nat :=
  (rowsFor t s).map (fun r => r.pdate)

/-- Does the table already hold the primary key `(symbol, date)`? -/
def hasKey (t : List Row) (s : String) (d : Nat) : Bool :=
  t.any (fun r => r.symbol == s && r.pdate == d)

/-- `INSERT OR REPLACE INTO symbol_metadata` for one symbol. -/
def setMeta (m : List (String × SymbolMeta)) (s : String) (v : SymbolMeta) :
    List (String × SymbolMeta) :=
  (m.filter (fun q => !(q.1 == s))) ++ [(s, v)]

/-- `HistoricalDataManager._get_date_ranges_to_fetch`:
`SELECT MIN(date), MAX(date) FROM price_history WHERE symbol = ?`; if the
result is `NULL` the whole window is fetched, otherwise at most a range
before the existing coverage and a range after it. -/
def get_date_ranges_to_fetch (db : DB) (s : String) (start_date end_date : Nat) :
    List (Nat × Nat) :=
  match listMinN (datesFor db.price_history s),
        listMaxN (datesFor db.price_history s) with
  | some existing_start, some existing_end =>
      (if start_date < existing_start then [(start_date, existing_start)] else [])
        ++ (if end_date > existing_end then [(existing_end, end_date)] else [])
  | _, _ => [(start_date, end_date)]

/-- The multi-row `INSERT` issued by
`DataFrame.to_sql('price_history', …, if_exists='append')`: a plain sqlite
`INSERT`, which raises `IntegrityError` on any `(symbol, date)` primary-key
conflict; the uncommitted transaction is then rolled back, so on error the
table is unchanged. -/
def insertBatch : List Row → List Row → Except Unit (List Row)
  | t, [] => .ok t
  | t, r :: rs =>
      if hasKey t r.symbol r.pdate then .error ()
      else insertBatch (t ++ [r]) rs

/-- `HistoricalDataManager._store_price_data`: append the batch rows (all
tagged with the given symbol), then recompute the symbol's metadata row from
the whole `price_history` table; returns the number of records stored.
On an `IntegrityError` the exception propagates and the state is unchanged. -/
def store_price_data (db : DB) (s : String) (pts : List PricePoint) :
    Except Unit (DB × Nat) :=
  match insertBatch db.price_history
          (pts.map (fun p => ⟨s, p.pdate, p.close⟩)) with
  | .error _ => .error ()
  | .ok t =>
      let md : SymbolMeta :=
        ⟨listMinN (datesFor t s), listMaxN (datesFor t s), (datesFor t s).length⟩
      .ok (⟨t, setMeta db.symbol_metadata s md⟩, pts.length)

/-- The `force_refresh` branch of `fetch_historical_data`:
`DELETE FROM price_history WHERE symbol = ?` and likewise for the metadata. -/
def refreshDelete (db : DB) (s : String) : DB :=
  ⟨db.price_history.filter (fun r => !(r.symbol == s)),
   db.symbol_metadata.filter (fun q => !(q.1 == s))⟩

/-- `HistoricalDataManager.clear_old_data`: deletes old price rows but never
touches `symbol_metadata`. -/
def clear_old_data (db : DB) (cutoff : Nat) : DB × Nat :=
  let keep := db.price_history.filter (fun r => !(r.pdate < cutoff))
  (⟨keep, db.symbol_metadata⟩, db.price_history.length - keep.length)

/-- `get_historical_data`: rows of the symbol within the window,
`ORDER BY date ASC` (insertion sort; dates are unique per symbol under the
primary-key invariant, so ties cannot occur). -/
def insertSorted (r : Row) : List Row → List Row
  | [] => [r]
  | x :: xs => if r.pdate ≤ x.pdate then r :: x :: xs else x :: insertSorted r xs

def sortByDate (l : List Row) : List Row := l.foldr insertSorted []

def get_historical_data (db : DB) (s : String) (a b : Nat) : List Row :=
  sortByDate (db.price_history.filter
    (fun r => r.symbol == s && decide (a ≤ r.pdate) && decide (r.pdate ≤ b)))

/-- The Quote Provider (`MarketDataFetcher.get_stock_data`): given a symbol
and a batch window it either raises (`.error`) or returns a list of price
points (possibly empty). -/
def QuoteProvider : Type := String → Nat → Nat → Except Unit (List PricePoint)

/-- One iteration of the batch loop of `_fetch_and_store_range`: the
`try`/`except` around the provider call and the store makes any failure
(provider exception, empty result, or `IntegrityError` from the insert)
skip the window, leaving the database unchanged. -/
def processWindow (p : QuoteProvider) (s : String) (db : DB) (w : Nat × Nat) : DB :=
  match p s w.1 w.2 with
  | .error _ => db
  | .ok pts =>
      if pts.isEmpty then db
      else
        match store_price_data db s pts with
        | .error _ => db
        | .ok (db', _) => db'

/-- The `while current < end` loop of `_fetch_and_store_range`, with an
explicit fuel argument (each iteration advances `current` by at least one
day, so `end - current` iterations suffice).  Returns the final database and
the number of provider calls issued. -/
def fetchLoop (p : QuoteProvider) (s : String) (batch_days : Nat) :
    Nat → DB → Nat → Nat → DB × Nat
  | 0, db, _, _ => (db, 0)
  | fuel + 1, db, current, endD =>
      if current < endD then
        let batch_end := Nat.min (current + batch_days) endD
        let db1 := processWindow p s db (current, batch_end)
        let r := fetchLoop p s batch_days fuel db1 (batch_end + 1) endD
        (r.1, r.2 + 1)
      else (db, 0)

/-- `HistoricalDataManager._fetch_and_store_range`. -/
def fetch_and_store_range (p : QuoteProvider) (db : DB) (s : String)
    (start_date end_date batch_days : Nat) : DB × Nat :=
  fetchLoop p s batch_days (end_date - start_date) db start_date end_date

/-- The list of batch windows the loop processes (same recursion). -/
def windowsLoop (batch_days : Nat) : Nat → Nat → Nat → List (Nat × Nat)
  | 0, _, _ => []
  | fuel + 1, current, endD =>
      if current < endD then
        let batch_end := Nat.min (current + batch_days) endD
        (current, batch_end) :: windowsLoop batch_days fuel (batch_end + 1) endD
      else []

def windows (start_date end_date batch_days : Nat) : List (Nat × Nat) :=
  windowsLoop batch_days (end_date - start_date) start_date end_date

/-- `HistoricalDataManager.fetch_historical_data`: optional forced refresh,
missing-range computation, per-range batched fetching, then a read of the
requested window.  Returns the final database, the number of provider calls
issued, and the returned point sequence. -/
def fetch_historical_data (p : QuoteProvider) (db : DB) (s : String)
    (start_date end_date : Nat) (force_refresh : Bool) (batch_days : Nat) :
    DB × Nat × List Row :=
  let db0 := if force_refresh then refreshDelete db s else db
  let ranges := get_date_ranges_to_fetch db0 s start_date end_date
  if ranges.isEmpty then (db0, 0, get_historical_data db0 s start_date end_date)
  else
    let r := ranges.foldl
      (fun (acc : DB × Nat) rg =>
        let step := fetch_and_store_range p acc.1 s rg.1 rg.2 batch_days
        (step.1, acc.2 + step.2)) (db0, 0)
    (r.1, r.2, get_historical_data r.1 s start_date end_date)

/-! ### Store operations and the metadata invariant (C3) -/

/-- The store operations the spec's invariant quantifies over. -/
inductive StoreOp where
  | write (s : String) (pts : List PricePoint)
  | refresh (s : String)
  | clearOld (cutoff : Nat)

/-- Effect of one operation on the database (a failed write raises inside
`_store_price_data`; the transaction is rolled back, leaving the state
unchanged). -/
def applyOp (db : DB) : StoreOp → DB
  | .write s pts =>
      match store_price_data db s pts with
      | .ok (db', _) => db'
      | .error _ => db
  | .refresh s => refreshDelete db s
  | .clearOld cutoff => (clear_old_data db cutoff).1

def applyOps (db : DB) (ops : List StoreOp) : DB := ops.foldl applyOp db

def isClearOld : StoreOp → Bool
  | .clearOld _ => true
  | _ => false

/-- The claimed metadata invariant for one symbol: the `symbol_metadata` row
carries the true min/max/count of the stored rows, or is absent (or present
with `NULL` dates and count `0`, which the spec's "undefined" also allows)
when the symbol has no stored points. -/
def metaOK (db : DB) (s : String) : Prop :=
  if datesFor db.price_history s = [] then
    db.symbol_metadata.lookup s = none ∨
      db.symbol_metadata.lookup s = some ⟨none, none, 0⟩
  else
    db.symbol_metadata.lookup s =
      some ⟨listMinN (datesFor db.price_history s),
            listMaxN (datesFor db.price_history s),
            (datesFor db.price_history s).length⟩

/-! ### `src/portfolio_performance.py` -/

/-- A row of the performance DataFrame produced by
`calculate_portfolio_history` (the first day's `daily_return` is `NaN`,
modelled as `none`). -/
structure PerfRow where
  pdate : Nat
  stock_value : ℚ
  crypto_value : ℚ
  bond_value : ℚ
  total_value : ℚ
  daily_return : Option ℚ
  cumulative_return : ℚ
deriving DecidableEq, Repr

/-- `values.expanding().max()`: running maxima with accumulator. -/
def pmAux (c : ℚ) : List ℚ → List ℚ
  | [] => []
  | v :: vs => max c v :: pmAux (max c v) vs

def runningMax : List ℚ → List ℚ
  | [] => []
  | v :: vs => v :: pmAux v vs

/-- `((values - rolling_max) / rolling_max) * 100`, elementwise. -/
def drawdownPct (vs : List ℚ) : List FVal :=
  (vs.zip (runningMax vs)).map (fun q => scale100 (divF (q.1 - q.2) q.2))

/-- `PortfolioPerformanceCalculator._calculate_max_drawdown_pct`. -/
def calculate_max_drawdown_pct (vs : List ℚ) : FVal :=
  seriesMin (drawdownPct vs)

/-- `PortfolioPerformanceCalculator._calculate_max_drawdown`
(absolute drawdown; no division, hence no non-finite values). -/
def calculate_max_drawdown (vs : List ℚ) : Option ℚ :=
  listMinQ ((vs.zip (runningMax vs)).map (fun q => q.1 - q.2))

/-- Insertion sort on rationals (`numpy` sorts before interpolating
percentiles). -/
def insertSortedQ (x : ℚ) : List ℚ → List ℚ
  | [] => [x]
  | y :: ys => if x ≤ y then x :: y :: ys else y :: insertSortedQ x ys

def sortQ (l : List ℚ) : List ℚ := l.foldr insertSortedQ []

/-- `numpy.percentile` with its default linear interpolation:
`h = (n-1)·q/100`, the result interpolates between the floor and ceiling
order statistics. -/
def percentileQ (xs : List ℚ) (q : ℚ) : ℚ :=
  let s := sortQ xs
  let h : ℚ := ((s.length : ℚ) - 1) * q / 100
  let lo : Nat := (Int.floor h).toNat
  s.getD lo 0 + (h - lo) * (s.getD (lo + 1) 0 - s.getD lo 0)

/-- `pandas.Series.std` (`ddof=1`): `NaN` (`none`) with fewer than two
observations; `sqrtA` stands for the float square root. -/
def sampleStd (sqrtA : ℚ → ℚ) (xs : List ℚ) : Option ℚ :=
  if 2 ≤ xs.length then some (sqrtA (sampleVar xs)) else none

/-- `_calculate_sortino_ratio`: 0 with no negative returns, 0 when the
downside deviation is exactly 0; `NaN` (`none`) when the downside deviation
itself is `NaN` (a single downside observation), since `NaN == 0` is False
in Python and the division then propagates the `NaN`. -/
def sortinoRatio (sqrtA : ℚ → ℚ) (returns : List ℚ) (annual_factor : ℚ) :
    Option ℚ :=
  let downside := returns.filter (fun r => decide (r < 0))
  if downside.isEmpty then some 0
  else
    match sampleStd sqrtA downside with
    | none => none
    | some d => if d = 0 then some 0
                else some (meanQ returns * annual_factor / (d * sqrtA annual_factor))

/-- `_calculate_calmar_ratio`: `annual_return / abs(max_drawdown_pct)`,
with the Python guard `if max_dd_pct == 0: return 0` (false on `NaN`);
a finite division by `+inf` gives `0` in floats. -/
def calmarRatio (annual_return : ℚ) (mdd : FVal) : FVal :=
  match FVal.absF mdd with
  | .fin m => if m = 0 then .fin 0 else .fin (annual_return / m)
  | .pinf => .fin 0
  | _ => .nan

/-- The dictionary built by `calculate_risk_metrics` (fields that pandas can
leave as `NaN` are `Option`s / `FVal`s). -/
structure RiskMetrics where
  total_return_pct : ℚ
  annualized_return : ℚ
  volatility_daily : Option ℚ
  volatility_annual : Option ℚ
  sharpe : ℚ
  sortino : Option ℚ
  max_drawdown : Option ℚ
  max_drawdown_pct : FVal
  win_rate : ℚ
  best_day : Option ℚ
  worst_day : Option ℚ
  calmar : FVal
  var_95 : ℚ
  var_99 : ℚ
  cvar_95 : Option ℚ
  cvar_99 : Option ℚ
deriving Repr

/-- Conditional expectation of the returns at or below a threshold
(`returns[returns <= p].mean()`), `NaN` when the subset is empty. -/
def cvarAt (returns : List ℚ) (p : ℚ) : Option ℚ :=
  let sub := returns.filter (fun r => decide (r ≤ p))
  if sub.isEmpty then none else some (meanQ sub)

/-- `PortfolioPerformanceCalculator.calculate_risk_metrics`: returns the
empty dict (`none`) when the frame has fewer than 2 rows, or when no row has
a defined `daily_return`; otherwise the full metrics dictionary. -/
def calculate_risk_metrics (sqrtA : ℚ → ℚ) (df : List PerfRow) :
    Option RiskMetrics :=
  if df.length < 2 then none
  else
    let returns := df.filterMap (fun r => r.daily_return)
    if returns.length = 0 then none
    else
      let annual_factor : ℚ := 252
      let values := df.map (fun r => r.total_value)
      let stdO := sampleStd sqrtA returns
      some
        { total_return_pct :=
            match df.getLast? with
            | some r => r.cumulative_return
            | none => 0
          annualized_return := meanQ returns * annual_factor
          volatility_daily := stdO
          volatility_annual := stdO.map (fun sd => sd * sqrtA annual_factor)
          sharpe :=
            match stdO with
            | some sd => if 0 < sd
                         then meanQ returns * annual_factor / (sd * sqrtA annual_factor)
                         else 0
            | none => 0
          sortino := sortinoRatio sqrtA returns annual_factor
          max_drawdown := calculate_max_drawdown values
          max_drawdown_pct := calculate_max_drawdown_pct values
          win_rate := ((returns.filter (fun r => decide (0 < r))).length : ℚ) /
                        (returns.length : ℚ) * 100
          best_day := listMaxQ returns
          worst_day := listMinQ returns
          calmar := calmarRatio (meanQ returns * annual_factor)
                      (calculate_max_drawdown_pct values)
          var_95 := percentileQ returns 5
          var_99 := percentileQ returns 1
          cvar_95 := cvarAt returns (percentileQ returns 5)
          cvar_99 := cvarAt returns (percentileQ returns 1) }

/-! ### Daily and cumulative returns of `calculate_portfolio_history`

`df['daily_return'] = df['total_value'].pct_change() * 100` and
`df['cumulative_return'] = ((df['total_value'] / df['total_value'].iloc[0]) - 1) * 100`.
The identities proved about them hold under the hypothesis that the divisor
values are nonzero (with a zero divisor pandas produces `±inf`/`NaN`,
excluded by the claims' definedness requirement). -/

def dailyRetQ (vs : List ℚ) (i : Nat) : ℚ :=
  (vs.getD i 0 / vs.getD (i - 1) 0 - 1) * 100

def cumRetQ (vs : List ℚ) (i : Nat) : ℚ :=
  (vs.getD i 0 / vs.getD 0 0 - 1) * 100

/-- The claim's reconstruction of the cumulative return on day `k` from the
per-day returns `r_1 … r_k`. -/
def reconstructCum (vs : List ℚ) (k : Nat) : ℚ :=
  (((List.range k).map (fun j => 1 + dailyRetQ vs (j + 1) / 100)).prod - 1) * 100

/-! ### `src/performance_analytics.py`: `calculate_alpha` -/

/-- The dictionary built by `calculate_alpha`. -/
structure AlphaMetrics where
  alpha_simple : ℚ
  jensens_alpha : ℚ
  beta : ℚ
  information_ratio : ℚ
  tracking_error : ℚ
  win_rate : ℚ
  correlation : Option ℚ
  avg_excess_return : ℚ
  total_excess_return : ℚ
deriving Repr

/-- `pd.DataFrame({'portfolio': …, 'benchmark': …}).dropna()`: keep the
index positions where both series have a value. -/
def alignPairs (port bench : List (Option ℚ)) : List (ℚ × ℚ) :=
  (port.zip bench).filterMap
    (fun p => p.1.bind (fun x => p.2.map (fun y => (x, y))))

/-- `PerformanceAnalytics.calculate_alpha`.  `np.cov` uses `ddof=1` while
`np.var` uses `ddof=0`, exactly as in the source; the division producing
`beta` is guarded by `benchmark_variance > 0`, and the information ratio by
`tracking_error > 0`. -/
def calculate_alpha (sqrtA : ℚ → ℚ) (port bench : List (Option ℚ))
    (risk_free_rate : ℚ) : Option AlphaMetrics :=
  let aligned := alignPairs port bench
  if aligned.length < 2 then none
  else
    let port_returns := aligned.map (fun p => p.1)
    let bench_returns := aligned.map (fun p => p.2)
    let excess := (aligned.map (fun p => p.1 - p.2))
    let alpha_simple := meanQ excess * 252
    let covariance := sampleCov port_returns bench_returns
    let benchmark_variance := popVar bench_returns
    let beta := if 0 < benchmark_variance then covariance / benchmark_variance else 0
    let port_annual_return := meanQ port_returns * 252
    let bench_annual_return := meanQ bench_returns * 252
    let jensens_alpha := port_annual_return -
      (risk_free_rate + beta * (bench_annual_return - risk_free_rate))
    let tracking_error := sqrtA (sampleVar excess) * sqrtA 252
    let sx := sqrtA (sampleVar port_returns)
    let sy := sqrtA (sampleVar bench_returns)
    some
      { alpha_simple := alpha_simple
        jensens_alpha := jensens_alpha
        beta := beta
        information_ratio :=
          if 0 < tracking_error then alpha_simple / tracking_error else 0
        tracking_error := tracking_error
        win_rate := ((excess.filter (fun e => decide (0 < e))).length : ℚ) /
                      (excess.length : ℚ) * 100
        correlation :=
          if sx * sy = 0 then none
          else some (sampleCov port_returns bench_returns / (sx * sy))
        avg_excess_return := meanQ excess
        total_excess_return := excess.sum }

/-! ### `compare_to_benchmark` -/

/-- A row of the comparison frame: the original performance row plus the
benchmark columns added by the merge. -/
structure CompRow where
  base : PerfRow
  benchmark_close : Option ℚ
  benchmark_return : FVal
  benchmark_cumulative : FVal
  alpha : FVal
  cumulative_alpha : FVal
deriving Repr

/-- `merge(..., on='date', how='left')` against the benchmark rows: each
performance row is paired with every benchmark row of the same date, or
with `NaN` when there is none.  (With unique benchmark dates this yields
exactly one output row per input row.) -/
def leftMergeBench (perf : List PerfRow) (bd : List Row) :
    List (PerfRow × Option ℚ) :=
  perf.flatMap (fun pr =>
    let ms := bd.filter (fun r => r.pdate == pr.pdate)
    if ms.isEmpty then [(pr, none)]
    else ms.map (fun r => (pr, some r.close)))

/-- Forward fill of a column with holes (`pct_change`'s default
`fill_method='pad'`). -/
def ffillAux (c : Option ℚ) : List (Option ℚ) → List (Option ℚ)
  | [] => []
  | none :: xs => c :: ffillAux c xs
  | some x :: xs => some x :: ffillAux (some x) xs

def ffill (l : List (Option ℚ)) : List (Option ℚ) := ffillAux none l

/-- `Series.pct_change() * 100` on a column that may contain `NaN`s. -/
def pctChangeF (cs : List (Option ℚ)) : List FVal :=
  let f := ffill cs
  (List.range cs.length).map (fun i =>
    if i = 0 then .nan
    else
      match f.getD (i - 1) none, f.getD i none with
      | some x, some y => scale100 (divF (y - x) x)
      | _, _ => .nan)

/-- `((benchmark_close / benchmark_close.iloc[0]) - 1) * 100` for one cell. -/
def benchCum (c c0 : Option ℚ) : FVal :=
  match c, c0 with
  | some x, some y => scale100 (divF (x - y) y)
  | _, _ => .nan

/-- Build the comparison rows from the merged pairs and the per-index
benchmark returns. -/
def mkCompRows (c0 : Option ℚ) :
    List (PerfRow × Option ℚ) → List FVal → List CompRow
  | [], _ => []
  | _, [] => []
  | (pr, c) :: ms, br :: brs =>
      { base := pr
        benchmark_close := c
        benchmark_return := br
        benchmark_cumulative := benchCum c c0
        alpha := FVal.sub (toFVal pr.daily_return) br
        cumulative_alpha := FVal.sub (.fin pr.cumulative_return) (benchCum c c0) }
        :: mkCompRows c0 ms brs

def mergeAndCompute (perf : List PerfRow) (bd : List Row) : List CompRow :=
  let merged := leftMergeBench perf bd
  let closes := merged.map (fun m => m.2)
  mkCompRows (closes.getD 0 none) merged (pctChangeF closes)

/-- `PortfolioPerformanceCalculator.compare_to_benchmark`: fetch the stored
benchmark rows over the performance frame's date span (falling back to a
provider fetch when the store is empty); if no benchmark data can be found
the frame is returned unmodified (`.inl`), otherwise the merged comparison
frame is returned (`.inr`). -/
def compare_to_benchmark (p : QuoteProvider) (db : DB) (perf : List PerfRow)
    (benchmark_symbol : String) : List PerfRow ⊕ List CompRow :=
  let a := (listMinN (perf.map (fun r => r.pdate))).getD 0
  let b := (listMaxN (perf.map (fun r => r.pdate))).getD 0
  let bd := get_historical_data db benchmark_symbol a b
  let bd := if bd.isEmpty
            then (fetch_historical_data p db benchmark_symbol a b false 100).2.2
            else bd
  if bd.isEmpty then .inl perf
  else .inr (mergeAndCompute perf bd)

/-! ## Claim C1: the missing-range computation -/

/-- C1: for every symbol and requested window `[a,b]`: with no stored points
`_get_date_ranges_to_fetch` returns exactly `[(a,b)]`; with coverage
`[f,l] ⊇ [a,b]` it returns `[]`; otherwise the range `(a,f)` before the
coverage is emitted whenever `a < f` and the range `(l,b)` after it
whenever `b > l`, at most two ranges are returned, every returned range is
one of those two, and no returned range lies strictly inside `[f,l]`. -/
theorem claim_C1_missing_ranges (db : DB) (s : String) (a b : Nat) :
    (datesFor db.price_history s = [] →
       get_date_ranges_to_fetch db s a b = [(a, b)]) ∧
    (∀ f l, listMinN (datesFor db.price_history s) = some f →
       listMaxN (datesFor db.price_history s) = some l →
       ((f ≤ a ∧ b ≤ l) → get_date_ranges_to_fetch db s a b = []) ∧
       (a < f → (a, f) ∈ get_date_ranges_to_fetch db s a b) ∧
       (l < b → (l, b) ∈ get_date_ranges_to_fetch db s a b) ∧
       (get_date_ranges_to_fetch db s a b).length ≤ 2 ∧
       (∀ r ∈ get_date_ranges_to_fetch db s a b,
          (a < f ∧ r = (a, f)) ∨ (l < b ∧ r = (l, b))) ∧
       (∀ r ∈ get_date_ranges_to_fetch db s a b, ¬ (f < r.1 ∧ r.2 < l))) := by
  constructor
  · intro h
    simp only [get_date_ranges_to_fetch, h, listMinN]
  · intro f l hmin hmax
    have h1 : (f ≤ a ∧ b ≤ l) → get_date_ranges_to_fetch db s a b = [] := by
      intro ⟨hfa, hbl⟩
      simp only [get_date_ranges_to_fetch, hmin, hmax]
      rw [if_neg (by omega), if_neg (by omega)]
      rfl
    have h2 : ∀ r ∈ get_date_ranges_to_fetch db s a b,
        (a < f ∧ r = (a, f)) ∨ (l < b ∧ r = (l, b)) := by
      intro r hr
      simp only [get_date_ranges_to_fetch, hmin, hmax] at hr
      by_cases haf : a < f <;> by_cases hlb : b > l <;>
        simp [haf, hlb] at hr <;> tauto
    refine ⟨h1, ?_, ?_, ?_, h2, ?_⟩
    · intro haf
      simp only [get_date_ranges_to_fetch, hmin, hmax]
      rw [if_pos haf]
      simp
    · intro hlb
      simp only [get_date_ranges_to_fetch, hmin, hmax]
      rw [if_pos hlb]
      simp
    · simp only [get_date_ranges_to_fetch, hmin, hmax]
      by_cases haf : a < f <;> by_cases hlb : b > l <;> simp [haf, hlb]
    · intro r hr
      rcases h2 r hr with ⟨hlt, rfl⟩ | ⟨hlt, rfl⟩ <;> simp <;> omega

/-- A store holding points for symbol `"A"` on days 5 and 7. -/
def dbC1 : DB := ⟨[⟨"A", 5, 0⟩, ⟨"A", 7, 0⟩], []⟩

/-- Witness for C1 at concrete inputs: an empty store yields the whole
window; with coverage `[5,7]` and window `[3,9]` the before-range `(3,5)`
and the after-range `(7,9)` are both emitted, and at most two ranges are
returned. -/
theorem claim_C1_missing_ranges_witness :
    get_date_ranges_to_fetch emptyDB "A" 3 9 = [(3, 9)] ∧
    (3, 5) ∈ get_date_ranges_to_fetch dbC1 "A" 3 9 ∧
    (7, 9) ∈ get_date_ranges_to_fetch dbC1 "A" 3 9 ∧
    (get_date_ranges_to_fetch dbC1 "A" 3 9).length ≤ 2 :=
  ⟨(claim_C1_missing_ranges emptyDB "A" 3 9).1 (by decide),
   ((claim_C1_missing_ranges dbC1 "A" 3 9).2 5 7 (by decide) (by decide)).2.1
     (by decide),
   ((claim_C1_missing_ranges dbC1 "A" 3 9).2 5 7 (by decide) (by decide)).2.2.1
     (by decide),
   ((claim_C1_missing_ranges dbC1 "A" 3 9).2 5 7 (by decide) (by decide)).2.2.2.1⟩

/-! ## Claim C2: `_store_price_data` on a duplicate key

The claim (and the source's own comment `# Insert or replace records`) says
duplicate `(symbol, date)` keys are replaced by the newest write and the
write never fails.  The code, however, issues a plain `INSERT` via
`DataFrame.to_sql(..., if_exists='append')`, so a duplicate key raises
`sqlite3.IntegrityError` (UNIQUE constraint violation) and the whole batch
is rolled back. -/

/-- A store already holding `(AAPL, day 10)`. -/
def dbC2 : DB := ⟨[⟨"AAPL", 10, 5⟩], [("AAPL", ⟨some 10, some 10, 1⟩)]⟩

/-- C2 (code bug): writing a batch that contains the already-stored date 10
raises (models `sqlite3.IntegrityError`) instead of replacing the row; the
database is left unchanged and the new close price 6 is never stored. -/
theorem claim_C2_duplicate_write_fails :
    store_price_data dbC2 "AAPL" [⟨10, 6⟩] = .error () := rfl

/-! ## Claim C3: the metadata invariant -/

theorem insertBatch_ok_eq :
    ∀ (batch t u : List Row), insertBatch t batch = .ok u → u = t ++ batch := by
  intro batch
  induction batch with
  | nil => intro t u h; cases h; simp
  | cons r rs ih =>
    intro t u h
    unfold insertBatch at h
    by_cases hk : hasKey t r.symbol r.pdate
    · rw [if_pos hk] at h; cases h
    · rw [if_neg hk] at h
      have := ih (t ++ [r]) u h
      simpa using this

theorem lookup_cons_key (s : String) (q : String × SymbolMeta)
    (m : List (String × SymbolMeta)) (h : s = q.1) :
    (q :: m).lookup s = some q.2 := by
  obtain ⟨k, w⟩ := q
  have hb : (s == k) = true := beq_iff_eq.mpr h
  simp [List.lookup, hb]

theorem lookup_cons_ne (s : String) (q : String × SymbolMeta)
    (m : List (String × SymbolMeta)) (h : s ≠ q.1) :
    (q :: m).lookup s = m.lookup s := by
  obtain ⟨k, w⟩ := q
  have hb : (s == k) = false := beq_eq_false_iff_ne.mpr h
  simp [List.lookup, hb]

theorem lookup_setMeta_self (m : List (String × SymbolMeta)) (s : String)
    (v : SymbolMeta) : (setMeta m s v).lookup s = some v := by
  induction m with
  | nil => simp [setMeta, List.lookup]
  | cons q m ih =>
    rw [setMeta, List.filter_cons]
    by_cases h : q.1 = s
    · rw [if_neg (by simp [h])]
      exact ih
    · rw [if_pos (by simp [h]), List.cons_append,
        lookup_cons_ne _ _ _ (Ne.symm h)]
      exact ih

theorem lookup_setMeta_other (m : List (String × SymbolMeta)) (s s' : String)
    (v : SymbolMeta) (h : s ≠ s') :
    (setMeta m s' v).lookup s = m.lookup s := by
  induction m with
  | nil =>
    rw [setMeta]
    simp only [List.filter_nil, List.nil_append]
    rw [lookup_cons_ne _ _ _ h]
  | cons q m ih =>
    rw [setMeta, List.filter_cons]
    by_cases hq : q.1 = s'
    · rw [if_neg (by simp [hq]), lookup_cons_ne _ _ _ (by rw [hq]; exact h)]
      exact ih
    · rw [if_pos (by simp [hq]), List.cons_append]
      by_cases hqs : s = q.1
      · rw [lookup_cons_key _ _ _ hqs, lookup_cons_key _ _ _ hqs]
      · rw [lookup_cons_ne _ _ _ hqs, lookup_cons_ne _ _ _ hqs]
        exact ih

theorem lookup_filter_self (m : List (String × SymbolMeta)) (s : String) :
    (m.filter (fun q => !(q.1 == s))).lookup s = none := by
  induction m with
  | nil => rfl
  | cons q m ih =>
    rw [List.filter_cons]
    by_cases h : q.1 = s
    · rw [if_neg (by simp [h])]
      exact ih
    · rw [if_pos (by simp [h]), lookup_cons_ne _ _ _ (Ne.symm h)]
      exact ih

theorem lookup_filter_other (m : List (String × SymbolMeta)) (s s' : String)
    (h : s ≠ s') :
    (m.filter (fun q => !(q.1 == s'))).lookup s = m.lookup s := by
  induction m with
  | nil => rfl
  | cons q m ih =>
    rw [List.filter_cons]
    by_cases hq : q.1 = s'
    · rw [if_neg (by simp [hq]), lookup_cons_ne _ _ _ (by rw [hq]; exact h)]
      exact ih
    · rw [if_pos (by simp [hq])]
      by_cases hqs : s = q.1
      · rw [lookup_cons_key _ _ _ hqs, lookup_cons_key _ _ _ hqs]
      · rw [lookup_cons_ne _ _ _ hqs, lookup_cons_ne _ _ _ hqs]
        exact ih

theorem rowsFor_append_map (t : List Row) (s : String) (pts : List PricePoint) :
    rowsFor (t ++ pts.map (fun p => ⟨s, p.pdate, p.close⟩)) s
      = rowsFor t s ++ pts.map (fun p => ⟨s, p.pdate, p.close⟩) := by
  simp [rowsFor, List.filter_append, List.filter_map, Function.comp_def]

theorem datesFor_append_same (t : List Row) (s : String) (pts : List PricePoint) :
    datesFor (t ++ pts.map (fun p => ⟨s, p.pdate, p.close⟩)) s
      = datesFor t s ++ pts.map (fun p => p.pdate) := by
  simp [datesFor, rowsFor_append_map, Function.comp_def]

theorem rowsFor_append_other (t : List Row) (s s' : String)
    (pts : List PricePoint) (h : s ≠ s') :
    rowsFor (t ++ pts.map (fun p => ⟨s', p.pdate, p.close⟩)) s = rowsFor t s := by
  simp [rowsFor, List.filter_append, List.filter_map, Function.comp_def, Ne.symm h]

theorem rowsFor_filter_other (t : List Row) (s s' : String) (h : s ≠ s') :
    rowsFor (t.filter (fun r => !(r.symbol == s'))) s = rowsFor t s := by
  induction t with
  | nil => rfl
  | cons r t ih =>
    simp only [rowsFor, List.filter_cons] at ih ⊢
    by_cases hr : r.symbol = s'
    · have hrs : r.symbol ≠ s := by rw [hr]; exact Ne.symm h
      rw [if_neg (by simp [hr]), if_neg (by simp [hrs])]
      exact ih
    · rw [if_pos (by simp [hr]), List.filter_cons]
      by_cases hs : r.symbol = s
      · rw [if_pos (by simp [hs]), if_pos (by simp [hs]), ih]
      · rw [if_neg (by simp [hs]), if_neg (by simp [hs])]
        exact ih

theorem rowsFor_filter_self (t : List Row) (s : String) :
    rowsFor (t.filter (fun r => !(r.symbol == s))) s = [] := by
  induction t with
  | nil => rfl
  | cons r t ih =>
    simp only [rowsFor, List.filter_cons] at ih ⊢
    by_cases hr : r.symbol = s
    · rw [if_neg (by simp [hr])]
      exact ih
    · rw [if_pos (by simp [hr]), List.filter_cons, if_neg (by simp [hr])]
      exact ih

theorem metaOK_emptyDB (s : String) : metaOK emptyDB s := by
  simp [metaOK, emptyDB, datesFor, rowsFor, List.lookup]

theorem metaOK_write (db : DB) (hdb : ∀ s, metaOK db s) (s' : String)
    (pts : List PricePoint) : ∀ s, metaOK (applyOp db (.write s' pts)) s := by
  intro s
  show metaOK (match store_price_data db s' pts with
               | .ok (db', _) => db' | .error _ => db) s
  unfold store_price_data
  cases hib : insertBatch db.price_history
      (pts.map (fun p => ⟨s', p.pdate, p.close⟩)) with
  | error e => exact hdb s
  | ok t =>
    have ht : t = db.price_history ++ pts.map (fun p => ⟨s', p.pdate, p.close⟩) :=
      insertBatch_ok_eq _ _ _ hib
    by_cases hs : s = s'
    · subst hs
      simp only [metaOK, lookup_setMeta_self]
      by_cases hempty : datesFor t s = []
      · rw [if_pos hempty, hempty]
        right; rfl
      · rw [if_neg hempty]
        trivial
    · have hdates : datesFor t s = datesFor db.price_history s := by
        rw [ht]; simp [datesFor, rowsFor_append_other _ _ _ _ hs]
      have hlk : (setMeta db.symbol_metadata s'
          ⟨listMinN (datesFor t s'), listMaxN (datesFor t s'),
           (datesFor t s').length⟩).lookup s = db.symbol_metadata.lookup s :=
        lookup_setMeta_other _ _ _ _ hs
      have hbase := hdb s
      unfold metaOK at hbase ⊢
      simp only [hdates, hlk]
      exact hbase

theorem metaOK_refresh (db : DB) (hdb : ∀ s, metaOK db s) (s' : String) :
    ∀ s, metaOK (applyOp db (.refresh s')) s := by
  intro s
  show metaOK (refreshDelete db s') s
  by_cases hs : s = s'
  · subst hs
    have hdates : datesFor (refreshDelete db s).price_history s = [] := by
      simp [refreshDelete, datesFor, rowsFor_filter_self]
    unfold metaOK
    rw [if_pos hdates]
    left
    exact lookup_filter_self _ _
  · have hdates : datesFor (refreshDelete db s').price_history s
        = datesFor db.price_history s := by
      simp [refreshDelete, datesFor, rowsFor_filter_other _ _ _ hs]
    have hlk : (refreshDelete db s').symbol_metadata.lookup s
        = db.symbol_metadata.lookup s := lookup_filter_other _ _ _ hs
    have hbase := hdb s
    unfold metaOK at hbase ⊢
    simp only [hdates, hlk]
    exact hbase

theorem metaOK_applyOps :
    ∀ (ops : List StoreOp) (db : DB), (∀ op ∈ ops, isClearOld op = false) →
      (∀ s, metaOK db s) → ∀ s, metaOK (applyOps db ops) s := by
  intro ops
  induction ops with
  | nil => intro db _ hdb s; exact hdb s
  | cons op ops ih =>
    intro db hops hdb s
    have hop : isClearOld op = false := hops op (List.mem_cons_self _ _)
    have hrest : ∀ o ∈ ops, isClearOld o = false :=
      fun o ho => hops o (List.mem_cons_of_mem _ ho)
    have hstep : ∀ s, metaOK (applyOp db op) s := by
      cases op with
      | write s' pts => exact metaOK_write db hdb s' pts
      | refresh s' => exact metaOK_refresh db hdb s'
      | clearOld c => simp [isClearOld] at hop
    exact ih (applyOp db op) hrest hstep s

/-- The database after writing `(A, day 5)` and then clearing data older
than day 10: the price row is gone but the metadata row survives. -/
def dbC3 : DB := applyOps emptyDB [.write "A" [⟨5, 1⟩], .clearOld 10]

/-- C3 counterexample: after a write followed by `clear_old_data`, symbol
`A` has zero stored points yet its `symbol_metadata` row still reads
`(first_date 5, last_date 5, total_records 1)` — the invariant claimed for
"any sequence of store operations (writes, forced refreshes, deletions)"
fails on this sequence. -/
theorem claim_C3_counterexample : ¬ metaOK dbC3 "A" := by
  have hd : datesFor dbC3.price_history "A" = [] := rfl
  have hl : dbC3.symbol_metadata.lookup "A" = some ⟨some 5, some 5, 1⟩ := rfl
  simp only [metaOK, hd, if_pos rfl, hl]
  rintro (h | h) <;> simp at h

/-- C3 amended: after any sequence of writes and forced refreshes (no
`clear_old_data`), every symbol's metadata row equals the true
min/max/count of its stored rows, or is absent/undefined (`NULL` dates,
count 0) when the symbol has zero stored points.  `clear_old_data` deletes
price rows without recomputing `symbol_metadata`, so deletions are excluded. -/
theorem claim_C3_amended (ops : List StoreOp)
    (h : ∀ op ∈ ops, isClearOld op = false) (s : String) :
    metaOK (applyOps emptyDB ops) s :=
  metaOK_applyOps ops emptyDB h metaOK_emptyDB s

/-- Witness for the amended C3 at a concrete operation sequence. -/
theorem claim_C3_amended_witness :
    metaOK (applyOps emptyDB [.write "A" [⟨5, 1⟩, ⟨7, 2⟩], .refresh "B"]) "A" :=
  claim_C3_amended [.write "A" [⟨5, 1⟩, ⟨7, 2⟩], .refresh "B"]
    (by intro op hop; fin_cases hop <;> rfl) "A"

/-! ## Claim C4: the insufficient-history guard of `calculate_risk_metrics` -/

/-- A frame with two rows but only one defined daily return. -/
def dfC4 : List PerfRow :=
  [⟨0, 0, 0, 0, 100, none, 0⟩, ⟨1, 0, 0, 0, 105, some 5, 5⟩]

/-- C4 counterexample: the claim says any series with fewer than 2 defined
`daily_return` entries yields the empty dict, but the code only checks
`len(df) < 2` and `len(returns) == 0`: with exactly one defined return it
returns a non-empty (partially `NaN`) metrics dict. -/
theorem claim_C4_counterexample :
    (dfC4.filterMap (fun r => r.daily_return)).length = 1 ∧
    (calculate_risk_metrics (fun x => x) dfC4).isSome = true := by
  exact ⟨rfl, rfl⟩

/-- C4 amended: `calculate_risk_metrics` returns the empty dict exactly when
the frame has fewer than 2 rows or zero rows with a defined `daily_return`;
with at least one defined return (and at least 2 rows) it returns a
non-empty snapshot (whose dispersion-based entries are `NaN` when only one
return is defined). -/
theorem claim_C4_amended (sqrtA : ℚ → ℚ) (df : List PerfRow) :
    ((df.length < 2 ∨ (df.filterMap (fun r => r.daily_return)).length = 0) →
       calculate_risk_metrics sqrtA df = none) ∧
    ((2 ≤ df.length ∧ 1 ≤ (df.filterMap (fun r => r.daily_return)).length) →
       (calculate_risk_metrics sqrtA df).isSome = true) := by
  constructor
  · rintro (h | h)
    · unfold calculate_risk_metrics
      rw [if_pos h]
    · unfold calculate_risk_metrics
      by_cases hl : df.length < 2
      · rw [if_pos hl]
      · rw [if_neg hl]
        rw [if_pos h]
  · rintro ⟨h1, h2⟩
    unfold calculate_risk_metrics
    rw [if_neg (by omega)]
    simp only
    rw [if_neg (by omega)]
    rfl

/-- Witness for the amended C4 at concrete inputs: the empty frame yields
the empty dict, and `dfC4` yields a non-empty one. -/
theorem claim_C4_amended_witness :
    calculate_risk_metrics (fun x => x) [] = none ∧
    (calculate_risk_metrics (fun x => x) dfC4).isSome = true :=
  ⟨(claim_C4_amended (fun x => x) []).1 (Or.inl (by decide)),
   (claim_C4_amended (fun x => x) dfC4).2 ⟨by decide, by decide⟩⟩

/-! ## Claim C5: the maximum-drawdown percentage -/

theorem foldl_min_le_init (ds : List ℚ) (d : ℚ) : ds.foldl min d ≤ d := by
  induction ds generalizing d with
  | nil => simp
  | cons a ds ih =>
    calc ds.foldl min (min d a) ≤ min d a := ih _
    _ ≤ d := min_le_left _ _

theorem foldl_min_le_mem : ∀ (ds : List ℚ) (d x : ℚ), x ∈ ds → ds.foldl min d ≤ x := by
  intro ds
  induction ds with
  | nil => intro d x hx; cases hx
  | cons a ds ih =>
    intro d x hx
    rcases List.mem_cons.mp hx with rfl | hx
    · calc ds.foldl min (min d x) ≤ min d x := foldl_min_le_init ds _
      _ ≤ x := min_le_right _ _
    · exact ih (min d a) x hx

theorem foldl_min_all_eq (ds : List ℚ) (d : ℚ) (hd : ∀ x ∈ ds, x = d) :
    ds.foldl min d = d := by
  induction ds with
  | nil => rfl
  | cons a ds ih =>
    have ha : a = d := hd a (List.mem_cons_self _ _)
    subst ha
    rw [List.foldl_cons, min_self]
    exact ih (fun x hx => hd x (List.mem_cons_of_mem _ hx))

/-- If `0` occurs among the drawdown entries, the reported minimum is a
float value `≤ 0` in the Python sense. -/
theorem leZeroB_seriesMin_of_mem_zero (l : List FVal) (h : FVal.fin 0 ∈ l) :
    (seriesMin l).leZeroB = true := by
  unfold seriesMin
  by_cases hn : l.any (fun v => match v with | .ninf => true | _ => false)
  · rw [if_pos hn]
    rfl
  · rw [if_neg hn]
    have h0 : (0 : ℚ) ∈ l.filterMap
        (fun v => match v with | .fin x => some x | _ => none) :=
      List.mem_filterMap.mpr ⟨.fin 0, h, rfl⟩
    cases hf : l.filterMap (fun v => match v with | .fin x => some x | _ => none) with
    | nil => rw [hf] at h0; cases h0
    | cons d ds =>
      rw [hf] at h0
      simp only [listMinQ]
      have hle : ds.foldl min d ≤ 0 := by
        rcases List.mem_cons.mp h0 with rfl | h0
        · exact foldl_min_le_init ds _
        · exact foldl_min_le_mem ds d 0 h0
      simp [FVal.leZeroB, hle]

/-- If every drawdown entry is `0` or `NaN` and a `0` occurs, the reported
minimum is exactly `0`. -/
theorem seriesMin_fin0_nan (l : List FVal) (hh : FVal.fin 0 ∈ l)
    (hall : ∀ v ∈ l, v = .fin 0 ∨ v = .nan) : seriesMin l = .fin 0 := by
  unfold seriesMin
  have hn : l.any (fun v => match v with | .ninf => true | _ => false) = false := by
    rw [List.any_eq_false]
    intro v hv
    rcases hall v hv with rfl | rfl <;> simp
  rw [hn]
  simp only [Bool.false_eq_true, if_false]
  have h0 : (0 : ℚ) ∈ l.filterMap
      (fun v => match v with | .fin x => some x | _ => none) :=
    List.mem_filterMap.mpr ⟨.fin 0, hh, rfl⟩
  have hzero : ∀ x ∈ l.filterMap
      (fun v => match v with | .fin x => some x | _ => none), x = (0 : ℚ) := by
    intro x hx
    obtain ⟨v, hv, hvx⟩ := List.mem_filterMap.mp hx
    rcases hall v hv with rfl | rfl
    · cases hvx
      rfl
    · cases hvx
  cases hf : l.filterMap (fun v => match v with | .fin x => some x | _ => none) with
  | nil => rw [hf] at h0; cases h0
  | cons d ds =>
    rw [hf] at hzero
    have hd : d = 0 := hzero d (List.mem_cons_self _ _)
    subst hd
    simp only [listMinQ]
    rw [foldl_min_all_eq ds 0 (fun x hx => hzero x (List.mem_cons_of_mem _ hx))]

theorem pmAux_of_chain :
    ∀ (vs : List ℚ) (c : ℚ), List.Chain' (· ≤ ·) (c :: vs) → pmAux c vs = vs := by
  intro vs
  induction vs with
  | nil => intro c _; rfl
  | cons v vs ih =>
    intro c hc
    have h1 : c ≤ v := (List.chain'_cons.mp hc).1
    have h2 : List.Chain' (· ≤ ·) (v :: vs) := (List.chain'_cons.mp hc).2
    unfold pmAux
    rw [max_eq_right h1]
    rw [ih v h2]

theorem zip_self_map (l : List ℚ) (g : ℚ × ℚ → FVal) :
    (l.zip l).map g = l.map (fun x => g (x, x)) := by
  induction l with
  | nil => rfl
  | cons x l ih => simp [List.zip_cons_cons, ih]

theorem dd_entry_self (x : ℚ) :
    scale100 (divF (x - x) x) = if x = 0 then FVal.nan else .fin 0 := by
  by_cases hx : x = 0
  · subst hx
    simp [divF, scale100]
  · rw [if_neg hx, divF, if_pos hx]
    simp [scale100, sub_self]

/-- C5 counterexample: on the (monotonically non-decreasing) value series
`[0]` the code computes `(0-0)/0 = NaN`, and `Series.min` of an all-`NaN`
series is `NaN`; `NaN ≤ 0` is False in Python, so neither part of the claim
holds for every series. -/
theorem claim_C5_counterexample :
    calculate_max_drawdown_pct [(0 : ℚ)] = .nan ∧
    FVal.leZeroB .nan = false := by
  constructor
  · have h1 : drawdownPct [(0 : ℚ)] = [.nan] := by
      simp [drawdownPct, runningMax, pmAux, divF, scale100]
    rw [calculate_max_drawdown_pct, h1]
    rfl
  · rfl

/-- C5 amended: for every nonempty value series whose first value is
nonzero, `_calculate_max_drawdown_pct` is `≤ 0` in the float sense, and it
equals `0` whenever the series is monotonically non-decreasing.  (The first
day's drawdown is `(v0 - v0)/v0 = 0`, so the minimum can never be positive;
a first value of `0` instead produces a leading `NaN`.) -/
theorem claim_C5_amended (v0 : ℚ) (vs : List ℚ) (h : v0 ≠ 0) :
    (calculate_max_drawdown_pct (v0 :: vs)).leZeroB = true ∧
    (List.Chain' (· ≤ ·) (v0 :: vs) →
      calculate_max_drawdown_pct (v0 :: vs) = .fin 0) := by
  have hhead : scale100 (divF (v0 - v0) v0) = .fin 0 := by
    rw [divF, if_pos h]
    simp [scale100, sub_self]
  constructor
  · have hdd : drawdownPct (v0 :: vs)
        = .fin 0 :: (vs.zip (pmAux v0 vs)).map
            (fun q => scale100 (divF (q.1 - q.2) q.2)) := by
      unfold drawdownPct runningMax
      rw [List.zip_cons_cons, List.map_cons, hhead]
    rw [calculate_max_drawdown_pct, hdd]
    exact leZeroB_seriesMin_of_mem_zero _ (List.mem_cons_self _ _)
  · intro hchain
    have hrm : runningMax (v0 :: vs) = v0 :: vs := by
      simp only [runningMax]
      rw [pmAux_of_chain vs v0 hchain]
    rw [calculate_max_drawdown_pct, drawdownPct, hrm,
      zip_self_map (v0 :: vs) (fun q => scale100 (divF (q.1 - q.2) q.2))]
    apply seriesMin_fin0_nan
    · have : scale100 (divF (v0 - v0) v0) ∈
          (v0 :: vs).map (fun x => scale100 (divF (x - x) x)) :=
        List.mem_map.mpr ⟨v0, List.mem_cons_self _ _, rfl⟩
      rwa [hhead] at this
    · intro v hv
      obtain ⟨x, _, hx⟩ := List.mem_map.mp hv
      rw [← hx, dd_entry_self]
      by_cases hx0 : x = 0
      · rw [if_pos hx0]; right; rfl
      · rw [if_neg hx0]; left; rfl

/-- Witness for the amended C5 on the increasing series `[1, 2]`. -/
theorem claim_C5_amended_witness :
    calculate_max_drawdown_pct [(1 : ℚ), 2] = .fin 0 :=
  (claim_C5_amended 1 [2] (by norm_num)).2
    (by rw [List.chain'_cons]; exact ⟨by norm_num, List.chain'_singleton _⟩)

/-! ## Claim C8: `calculate_alpha` with a zero-variance benchmark -/

/-- C8: for every pair of aligned return series of length ≥ 2 whose
benchmark side has zero variance, `calculate_alpha` yields `beta = 0` and,
with the default `risk_free_rate = 0`, `jensens_alpha` equal to the
annualized portfolio return (mean × 252).  No division error can occur:
the division producing `beta` is guarded by `benchmark_variance > 0`. -/
theorem claim_C8_zero_variance_alpha (sqrtA : ℚ → ℚ)
    (port bench : List (Option ℚ))
    (h2 : 2 ≤ (alignPairs port bench).length)
    (hvar : popVar ((alignPairs port bench).map (fun p => p.2)) = 0) :
    ∃ m, calculate_alpha sqrtA port bench 0 = some m ∧ m.beta = 0 ∧
      m.jensens_alpha = meanQ ((alignPairs port bench).map (fun p => p.1)) * 252 := by
  simp only [calculate_alpha]
  rw [if_neg (by omega)]
  refine ⟨_, rfl, ?_, ?_⟩
  · dsimp only
    rw [hvar, if_neg (lt_irrefl 0)]
  · dsimp only
    rw [hvar, if_neg (lt_irrefl 0)]
    ring

/-- Witness for C8: portfolio returns `[1, 2]` against the constant
benchmark `[5, 5]`. -/
theorem claim_C8_zero_variance_alpha_witness :
    2 ≤ (alignPairs [some 1, some 2] [some (5 : ℚ), some 5]).length ∧
    popVar ((alignPairs [some 1, some 2] [some (5 : ℚ), some 5]).map
      (fun p => p.2)) = 0 ∧
    ∃ m, calculate_alpha (fun x => x) [some 1, some 2]
        [some (5 : ℚ), some 5] 0 = some m ∧ m.beta = 0 ∧
      m.jensens_alpha = meanQ ((alignPairs [some 1, some 2]
        [some (5 : ℚ), some 5]).map (fun p => p.1)) * 252 := by
  have halign : alignPairs [some (1 : ℚ), some 2] [some (5 : ℚ), some 5]
      = [(1, 5), (2, 5)] := by
    simp [alignPairs]
  have h2 : 2 ≤ (alignPairs [some (1 : ℚ), some 2]
      [some (5 : ℚ), some 5]).length := by
    rw [halign]
    simp
  have hvar : popVar ((alignPairs [some (1 : ℚ), some 2]
      [some (5 : ℚ), some 5]).map (fun p => p.2)) = 0 := by
    rw [halign]
    norm_num [popVar, meanQ]
  exact ⟨h2, hvar, claim_C8_zero_variance_alpha (fun x => x) _ _ h2 hvar⟩

/-! ## Claim C9: cumulative returns round-trip through daily returns -/

theorem reconstruct_prod (vs : List ℚ) :
    ∀ k, vs.getD 0 0 ≠ 0 → (∀ j, j < k → vs.getD j 0 ≠ 0) →
      ((List.range k).map (fun j => 1 + dailyRetQ vs (j + 1) / 100)).prod
        = vs.getD k 0 / vs.getD 0 0 := by
  intro k
  induction k with
  | zero =>
    intro h0 _
    simp only [List.range_zero, List.map_nil, List.prod_nil]
    exact (div_self h0).symm
  | succ k ih =>
    intro h0 hj
    rw [List.range_succ, List.map_append, List.prod_append]
    rw [ih h0 (fun j hjk => hj j (Nat.lt_succ_of_lt hjk))]
    simp only [List.map_cons, List.map_nil, List.prod_cons, List.prod_nil,
      mul_one]
    have hk : vs.getD k 0 ≠ 0 := hj k (Nat.lt_succ_self k)
    unfold dailyRetQ
    simp only [Nat.add_sub_cancel]
    generalize vs.getD (k + 1) 0 = b
    generalize hA : vs.getD k 0 = a at hk ⊢
    generalize hC : vs.getD 0 0 = c at h0 ⊢
    field_simp
    ring

/-- C9: on every day `k` of the series, the directly computed
`cumulative_return` `(v_k / v_0 - 1) * 100` equals
`((1+r_1)⋯(1+r_k) - 1) * 100` reconstructed from the per-day
`daily_return`s (the first, undefined day excluded).  In this exact-
rational embedding the identity is exact; the hypotheses exclude zero
divisors, where pandas would produce `±inf`/`NaN`. -/
theorem claim_C9_cumulative_roundtrip (vs : List ℚ) (k : Nat)
    (hk : k < vs.length) (h0 : vs.getD 0 0 ≠ 0)
    (hj : ∀ j, j < k → vs.getD j 0 ≠ 0) :
    cumRetQ vs k = reconstructCum vs k := by
  unfold cumRetQ reconstructCum
  rw [reconstruct_prod vs k h0 hj]

/-- Witness for C9 on the value series `[1, 2, 4]` at day 2. -/
theorem claim_C9_cumulative_roundtrip_witness :
    cumRetQ [1, 2, 4] 2 = reconstructCum [1, 2, 4] 2 :=
  claim_C9_cumulative_roundtrip [1, 2, 4] 2 (by norm_num)
    (by simp)
    (by
      intro j hj
      interval_cases j <;> simp)

/-! ## Claim C7: per-window failure handling in `_fetch_and_store_range` -/

theorem fetchLoop_eq_fold (p : QuoteProvider) (s : String) (bd : Nat) :
    ∀ (fuel : Nat) (db : DB) (cur endD : Nat), endD - cur ≤ fuel →
      fetchLoop p s bd fuel db cur endD
        = ((windowsLoop bd fuel cur endD).foldl (processWindow p s) db,
           (windowsLoop bd fuel cur endD).length) := by
  intro fuel
  induction fuel with
  | zero =>
    intro db cur endD h
    have hc : ¬ cur < endD := by omega
    simp [fetchLoop, windowsLoop]
  | succ fuel ih =>
    intro db cur endD h
    by_cases hc : cur < endD
    · have hbe : cur ≤ Nat.min (cur + bd) endD :=
        Nat.le_min.mpr ⟨Nat.le_add_right _ _, Nat.le_of_lt hc⟩
      have hfuel : endD - (Nat.min (cur + bd) endD + 1) ≤ fuel := by omega
      simp only [fetchLoop, windowsLoop, if_pos hc, List.foldl_cons,
        List.length_cons]
      rw [ih (processWindow p s db (cur, Nat.min (cur + bd) endD))
          (Nat.min (cur + bd) endD + 1) endD hfuel]
    · simp [fetchLoop, windowsLoop, hc]

theorem store_price_data_extends (db : DB) (s : String) (pts : List PricePoint)
    (db' : DB) (n : Nat) (h : store_price_data db s pts = .ok (db', n)) :
    db'.price_history
      = db.price_history ++ pts.map (fun q => ⟨s, q.pdate, q.close⟩) := by
  unfold store_price_data at h
  cases hib : insertBatch db.price_history
      (pts.map (fun q => ⟨s, q.pdate, q.close⟩)) with
  | error e => rw [hib] at h; cases h
  | ok t =>
    rw [hib] at h
    injection h with h1
    injection h1 with h2 h3
    rw [← h2]
    exact insertBatch_ok_eq _ _ _ hib

theorem processWindow_extends (p : QuoteProvider) (s : String) (db : DB)
    (w : Nat × Nat) :
    ∃ ext, (processWindow p s db w).price_history = db.price_history ++ ext := by
  unfold processWindow
  cases p s w.1 w.2 with
  | error e => exact ⟨[], by simp⟩
  | ok pts =>
    dsimp only
    by_cases hp : pts.isEmpty
    · rw [if_pos hp]
      exact ⟨[], by simp⟩
    · rw [if_neg hp]
      cases hsp : store_price_data db s pts with
      | error e => exact ⟨[], by simp⟩
      | ok r =>
        exact ⟨pts.map (fun q => ⟨s, q.pdate, q.close⟩),
          store_price_data_extends db s pts r.1 r.2 (by rw [hsp])⟩

theorem foldl_processWindow_extends (p : QuoteProvider) (s : String) :
    ∀ (ws : List (Nat × Nat)) (db : DB),
      ∃ ext, (ws.foldl (processWindow p s) db).price_history
        = db.price_history ++ ext := by
  intro ws
  induction ws with
  | nil => intro db; exact ⟨[], by simp⟩
  | cons w ws ih =>
    intro db
    obtain ⟨e1, h1⟩ := processWindow_extends p s db w
    obtain ⟨e2, h2⟩ := ih (processWindow p s db w)
    exact ⟨e1 ++ e2, by rw [List.foldl_cons, h2, h1, List.append_assoc]⟩

theorem fasr_extends (p : QuoteProvider) (db : DB) (s : String) (a b bd : Nat) :
    ∃ ext, (fetch_and_store_range p db s a b bd).1.price_history
      = db.price_history ++ ext := by
  unfold fetch_and_store_range
  rw [fetchLoop_eq_fold p s bd (b - a) db a b (le_refl _)]
  exact foldl_processWindow_extends p s _ db

theorem rangesFold_extends (p : QuoteProvider) (s : String) (bd : Nat) :
    ∀ (rgs : List (Nat × Nat)) (acc : DB × Nat),
      ∃ ext, ((rgs.foldl (fun (acc : DB × Nat) rg =>
          let step := fetch_and_store_range p acc.1 s rg.1 rg.2 bd
          (step.1, acc.2 + step.2)) acc).1).price_history
        = acc.1.price_history ++ ext := by
  intro rgs
  induction rgs with
  | nil => intro acc; exact ⟨[], by simp⟩
  | cons rg rgs ih =>
    intro acc
    obtain ⟨e1, h1⟩ := fasr_extends p acc.1 s rg.1 rg.2 bd
    obtain ⟨e2, h2⟩ := ih ((fetch_and_store_range p acc.1 s rg.1 rg.2 bd).1,
      acc.2 + (fetch_and_store_range p acc.1 s rg.1 rg.2 bd).2)
    refine ⟨e1 ++ e2, ?_⟩
    rw [List.foldl_cons]
    exact h2.trans (by rw [h1, List.append_assoc])

/-- C7: the batch loop of `_fetch_and_store_range` is exactly a fold of the
per-window step over the full window list: a window whose provider call
raises, returns no data, or whose insert fails leaves the database unchanged
(`processWindow`) and the loop continues with every remaining window; the
number of provider calls equals the total number of windows for every
provider (failures never abort the loop); and the table only ever grows, so
the successfully stored windows persist.  The `try`/`except` is part of the
loop body, so no window exception escapes `fetch_historical_data`, whose
result likewise only extends the table. -/
theorem claim_C7_per_window_failure (p : QuoteProvider) (db : DB) (s : String)
    (a b bd : Nat) :
    (fetch_and_store_range p db s a b bd
      = ((windows a b bd).foldl (processWindow p s) db,
         (windows a b bd).length)) ∧
    (∀ p' : QuoteProvider, ∀ db' : DB,
      (fetch_and_store_range p' db' s a b bd).2
        = (fetch_and_store_range p db s a b bd).2) ∧
    (∃ ext, (fetch_and_store_range p db s a b bd).1.price_history
      = db.price_history ++ ext) ∧
    (∃ ext, (fetch_historical_data p db s a b false bd).1.price_history
      = db.price_history ++ ext) := by
  refine ⟨?_, ?_, fasr_extends p db s a b bd, ?_⟩
  · unfold fetch_and_store_range windows
    exact fetchLoop_eq_fold p s bd (b - a) db a b (le_refl _)
  · intro p' db'
    unfold fetch_and_store_range
    rw [fetchLoop_eq_fold p s bd (b - a) db a b (le_refl _),
      fetchLoop_eq_fold p' s bd (b - a) db' a b (le_refl _)]
  · unfold fetch_historical_data
    simp only [Bool.false_eq_true, if_false]
    by_cases hr : (get_date_ranges_to_fetch db s a b).isEmpty
    · rw [if_pos hr]
      exact ⟨[], by simp⟩
    · rw [if_neg hr]
      exact rangesFold_extends p s bd (get_date_ranges_to_fetch db s a b) (db, 0)

/-! ## Claim C6: idempotence of `fetch_historical_data` -/

theorem ranges_of_no_dates (db : DB) (s : String) (a b : Nat)
    (h : datesFor db.price_history s = []) :
    get_date_ranges_to_fetch db s a b = [(a, b)] := by
  simp only [get_date_ranges_to_fetch, h, listMinN]

theorem fetchLoop_done (p : QuoteProvider) (s : String) (bd : Nat) :
    ∀ (fuel : Nat) (db : DB) (cur endD : Nat), ¬ cur < endD →
      fetchLoop p s bd fuel db cur endD = (db, 0) := by
  intro fuel db cur endD h
  cases fuel with
  | zero => rfl
  | succ fuel => simp [fetchLoop, h]

theorem hasKey_false_of_rowsFor_nil (t : List Row) (s : String)
    (h : rowsFor t s = []) (d : Nat) : hasKey t s d = false := by
  rw [hasKey, List.any_eq_false]
  intro r hr hcontra
  rw [Bool.and_eq_true, beq_iff_eq, beq_iff_eq] at hcontra
  have hmem : r ∈ rowsFor t s := List.mem_filter.mpr ⟨hr, by simp [hcontra.1]⟩
  rw [h] at hmem
  cases hmem

theorem insertBatch_ok_of_fresh : ∀ (batch t : List Row),
    (∀ r ∈ batch, hasKey t r.symbol r.pdate = false) →
    (batch.map (fun r => (r.symbol, r.pdate))).Nodup →
    insertBatch t batch = .ok (t ++ batch) := by
  intro batch
  induction batch with
  | nil => intro t _ _; simp [insertBatch]
  | cons r rs ih =>
    intro t hfresh hnd
    unfold insertBatch
    rw [if_neg (by rw [hfresh r (List.mem_cons_self _ _)]; simp)]
    have hnd2 : (∀ x ∈ rs, x.symbol = r.symbol → ¬ x.pdate = r.pdate) ∧
        (rs.map (fun r => (r.symbol, r.pdate))).Nodup := by
      simpa using hnd
    have hnd' : (rs.map (fun r => (r.symbol, r.pdate))).Nodup := hnd2.2
    have hfresh' : ∀ r' ∈ rs, hasKey (t ++ [r]) r'.symbol r'.pdate = false := by
      intro r' hr'
      have h1 : hasKey t r'.symbol r'.pdate = false :=
        hfresh r' (List.mem_cons_of_mem _ hr')
      rw [hasKey] at h1 ⊢
      rw [List.any_append, h1, Bool.false_or]
      simp only [List.any_cons, List.any_nil, Bool.or_false]
      rw [Bool.eq_false_iff]
      intro htrue
      rw [Bool.and_eq_true, beq_iff_eq, beq_iff_eq] at htrue
      exact hnd2.1 r' hr' htrue.1.symm htrue.2.symm
    rw [ih (t ++ [r]) hfresh' hnd']
    simp

theorem foldl_natMin_le_init : ∀ (ds : List Nat) (d : Nat),
    ds.foldl Nat.min d ≤ d := by
  intro ds
  induction ds with
  | nil => intro d; simp
  | cons a ds ih =>
    intro d
    rw [List.foldl_cons]
    have h1 := ih (Nat.min d a)
    have h2 : Nat.min d a ≤ d := Nat.min_le_left d a
    omega

theorem foldl_natMin_le_mem : ∀ (ds : List Nat) (d x : Nat), x ∈ ds →
    ds.foldl Nat.min d ≤ x := by
  intro ds
  induction ds with
  | nil => intro d x hx; cases hx
  | cons a ds ih =>
    intro d x hx
    rw [List.foldl_cons]
    rcases List.mem_cons.mp hx with rfl | hx
    · have h1 := foldl_natMin_le_init ds (Nat.min d x)
      have h2 : Nat.min d x ≤ x := Nat.min_le_right d x
      omega
    · exact ih (Nat.min d a) x hx

theorem foldl_natMin_mem : ∀ (ds : List Nat) (d : Nat),
    ds.foldl Nat.min d ∈ d :: ds := by
  intro ds
  induction ds with
  | nil => intro d; exact List.mem_cons_self _ _
  | cons a ds ih =>
    intro d
    rw [List.foldl_cons]
    rcases List.mem_cons.mp (ih (Nat.min d a)) with h | h
    · by_cases hda : d ≤ a
      · have hm : Nat.min d a = d := min_eq_left hda
        rw [h, hm]
        exact List.mem_cons_self _ _
      · have hm : Nat.min d a = a := min_eq_right (by omega)
        rw [h, hm]
        exact List.mem_cons_of_mem _ (List.mem_cons_self _ _)
    · exact List.mem_cons_of_mem _ (List.mem_cons_of_mem _ h)

theorem foldl_natMax_ge_init : ∀ (ds : List Nat) (d : Nat),
    d ≤ ds.foldl Nat.max d := by
  intro ds
  induction ds with
  | nil => intro d; simp
  | cons a ds ih =>
    intro d
    rw [List.foldl_cons]
    have h1 := ih (Nat.max d a)
    have h2 : d ≤ Nat.max d a := Nat.le_max_left d a
    omega

theorem foldl_natMax_ge_mem : ∀ (ds : List Nat) (d x : Nat), x ∈ ds →
    x ≤ ds.foldl Nat.max d := by
  intro ds
  induction ds with
  | nil => intro d x hx; cases hx
  | cons a ds ih =>
    intro d x hx
    rw [List.foldl_cons]
    rcases List.mem_cons.mp hx with rfl | hx
    · have h1 := foldl_natMax_ge_init ds (Nat.max d x)
      have h2 : x ≤ Nat.max d x := Nat.le_max_right d x
      omega
    · exact ih (Nat.max d a) x hx

theorem foldl_natMax_mem : ∀ (ds : List Nat) (d : Nat),
    ds.foldl Nat.max d ∈ d :: ds := by
  intro ds
  induction ds with
  | nil => intro d; exact List.mem_cons_self _ _
  | cons a ds ih =>
    intro d
    rw [List.foldl_cons]
    rcases List.mem_cons.mp (ih (Nat.max d a)) with h | h
    · by_cases hda : d ≤ a
      · have hm : Nat.max d a = a := max_eq_right hda
        rw [h, hm]
        exact List.mem_cons_of_mem _ (List.mem_cons_self _ _)
      · have hm : Nat.max d a = d := max_eq_left (by omega)
        rw [h, hm]
        exact List.mem_cons_self _ _
    · exact List.mem_cons_of_mem _ (List.mem_cons_of_mem _ h)

theorem listMinN_eq (l : List Nat) (x : Nat) (hx : x ∈ l)
    (hlb : ∀ y ∈ l, x ≤ y) : listMinN l = some x := by
  cases l with
  | nil => cases hx
  | cons d ds =>
    simp only [listMinN, Option.some.injEq]
    have h1 : ds.foldl Nat.min d ≤ x := by
      rcases List.mem_cons.mp hx with rfl | hx'
      · exact foldl_natMin_le_init ds x
      · exact foldl_natMin_le_mem ds d x hx'
    have h2 : x ≤ ds.foldl Nat.min d := hlb _ (foldl_natMin_mem ds d)
    omega

theorem listMaxN_eq (l : List Nat) (x : Nat) (hx : x ∈ l)
    (hub : ∀ y ∈ l, y ≤ x) : listMaxN l = some x := by
  cases l with
  | nil => cases hx
  | cons d ds =>
    simp only [listMaxN, Option.some.injEq]
    have h1 : x ≤ ds.foldl Nat.max d := by
      rcases List.mem_cons.mp hx with rfl | hx'
      · exact foldl_natMax_ge_init ds x
      · exact foldl_natMax_ge_mem ds d x hx'
    have h2 : ds.foldl Nat.max d ≤ x := hub _ (foldl_natMax_mem ds d)
    omega

/-- The one-window fetch on a symbol with no stored rows stores one row per
day of the window. -/
theorem processWindow_total (p : QuoteProvider) (f : Nat → ℚ) (db : DB)
    (s : String) (x y : Nat)
    (hprov : p s x y = .ok ((List.range' x (y + 1 - x)).map (fun d => ⟨d, f d⟩)))
    (hempty : rowsFor db.price_history s = [])
    (hxy : x ≤ y) :
    (processWindow p s db (x, y)).price_history
      = db.price_history
          ++ (List.range' x (y + 1 - x)).map (fun d => ⟨s, d, f d⟩) := by
  unfold processWindow
  dsimp only
  rw [hprov]
  dsimp only
  have hlen : ((List.range' x (y + 1 - x)).map
      (fun d => (⟨d, f d⟩ : PricePoint))).length = y + 1 - x := by
    simp
  rw [if_neg (by
    rw [List.isEmpty_iff]
    intro hnil
    rw [hnil] at hlen
    simp at hlen
    omega)]
  unfold store_price_data
  have hmap : ((List.range' x (y + 1 - x)).map
        (fun d => (⟨d, f d⟩ : PricePoint))).map
          (fun q => (⟨s, q.pdate, q.close⟩ : Row))
      = (List.range' x (y + 1 - x)).map (fun d => (⟨s, d, f d⟩ : Row)) := by
    rw [List.map_map]
    rfl
  rw [hmap]
  rw [insertBatch_ok_of_fresh _ db.price_history
    (by
      intro r hr
      obtain ⟨d, hd, rfl⟩ := List.mem_map.mp hr
      exact hasKey_false_of_rowsFor_nil _ _ hempty d)
    (by
      have : ((List.range' x (y + 1 - x)).map
          (fun d => (⟨s, d, f d⟩ : Row))).map (fun r => (r.symbol, r.pdate))
          = (List.range' x (y + 1 - x)).map (fun d => (s, d)) := by
        rw [List.map_map]
        rfl
      rw [this]
      exact (List.nodup_range' _ _).map
        (fun d1 d2 hh => by simpa using hh))]

/-- Reading back the result: `fetch_historical_data` always returns the rows
of the final database over the requested window. -/
theorem fetch_returns_read (p : QuoteProvider) (db : DB) (s : String)
    (a b : Nat) (force : Bool) (bd : Nat) :
    (fetch_historical_data p db s a b force bd).2.2
      = get_historical_data (fetch_historical_data p db s a b force bd).1
          s a b := by
  unfold fetch_historical_data
  by_cases hr : (get_date_ranges_to_fetch
      (if force then refreshDelete db s else db) s a b).isEmpty
  · rw [if_pos hr]
  · rw [if_neg hr]

/-- A fetch over an empty window (`¬ a < b`) on an uncovered symbol issues
no provider calls and changes nothing. -/
theorem fetch_noop (p : QuoteProvider) (db : DB) (s : String) (a b bd : Nat)
    (hempty : rowsFor db.price_history s = []) (hab : ¬ a < b) :
    fetch_historical_data p db s a b false bd
      = (db, 0, get_historical_data db s a b) := by
  have hdates : datesFor db.price_history s = [] := by
    rw [datesFor, hempty]
    rfl
  unfold fetch_historical_data
  simp only [Bool.false_eq_true, if_false]
  rw [ranges_of_no_dates db s a b hdates]
  rw [if_neg (by simp)]
  simp only [List.foldl_cons, List.foldl_nil]
  unfold fetch_and_store_range
  rw [fetchLoop_done p s bd _ db a b hab]
  rfl

/-- The first call on an uncovered symbol with `a < b ≤ a + batch_days`:
one provider call, and the store gains one row per day of `[a, b]`. -/
theorem fetch_first_call (p : QuoteProvider) (f : Nat → ℚ) (db : DB)
    (s : String) (a b bd : Nat)
    (hprov : ∀ x y, p s x y = .ok ((List.range' x (y + 1 - x)).map
      (fun d => ⟨d, f d⟩)))
    (hempty : rowsFor db.price_history s = [])
    (hspan : b - a ≤ bd) (hab : a < b) :
    (fetch_historical_data p db s a b false bd).1.price_history
      = db.price_history
          ++ (List.range' a (b + 1 - a)).map (fun d => ⟨s, d, f d⟩) := by
  have hdates : datesFor db.price_history s = [] := by
    rw [datesFor, hempty]
    rfl
  unfold fetch_historical_data
  simp only [Bool.false_eq_true, if_false]
  rw [ranges_of_no_dates db s a b hdates]
  rw [if_neg (by simp)]
  simp only [List.foldl_cons, List.foldl_nil]
  unfold fetch_and_store_range
  obtain ⟨k, hk⟩ : ∃ k, b - a = k + 1 := ⟨b - a - 1, by omega⟩
  rw [hk]
  simp only [fetchLoop, if_pos hab]
  have hbe : Nat.min (a + bd) b = b := min_eq_right (by omega)
  rw [hbe]
  rw [fetchLoop_done p s bd k _ (b + 1) b (by omega)]
  exact processWindow_total p f db s a b (hprov a b) hempty (Nat.le_of_lt hab)

/-- A database of six stored days (5..10) for symbol `A`. -/
def dbC6 : DB :=
  ⟨[⟨"A", 5, 0⟩, ⟨"A", 6, 0⟩, ⟨"A", 7, 0⟩, ⟨"A", 8, 0⟩, ⟨"A", 9, 0⟩,
    ⟨"A", 10, 0⟩], []⟩

/-- A perfectly well-behaved provider: one point per day of any window. -/
def pC6 : QuoteProvider :=
  fun _ x y => .ok ((List.range' x (y + 1 - x)).map (fun d => ⟨d, 0⟩))

/-- C6 counterexample: with days 5..10 already stored for `A`, fetching
`[3,10]` computes the missing range `(3,5)`, whose batch re-fetches the
already-stored day 5; the insert raises `IntegrityError` and the whole
batch is rolled back, so nothing is stored and the second identical call
issues one provider call again — not zero.  The claimed idempotence fails
even for a provider that returns a point for every requested day. -/
theorem claim_C6_counterexample :
    (fetch_historical_data pC6
        ((fetch_historical_data pC6 dbC6 "A" 3 10 false 100).1)
        "A" 3 10 false 100).2.1 = 1 := by
  rfl

/-- C6 amended: `ensure_range` is idempotent — zero provider calls and an
identical point sequence on the second call — provided the store initially
holds no points for the symbol, the provider returns one point per day of
any requested window, and the window spans at most `batch_days` days.
(Each violated proviso yields a counterexample: pre-existing partial
coverage makes the boundary batch's insert fail, and a window of
`batch_days + 1` days leaves the final day uncovered, so the second call
fetches again.) -/
theorem claim_C6_amended (p : QuoteProvider) (f : Nat → ℚ) (db : DB)
    (s : String) (a b bd : Nat)
    (hprov : ∀ x y, p s x y = .ok ((List.range' x (y + 1 - x)).map
      (fun d => ⟨d, f d⟩)))
    (hempty : rowsFor db.price_history s = [])
    (hspan : b - a ≤ bd) :
    (fetch_historical_data p
        ((fetch_historical_data p db s a b false bd).1) s a b false bd).2.1 = 0
    ∧ (fetch_historical_data p
        ((fetch_historical_data p db s a b false bd).1) s a b false bd).2.2
      = (fetch_historical_data p db s a b false bd).2.2 := by
  by_cases hab : a < b
  · have hprice := fetch_first_call p f db s a b bd hprov hempty hspan hab
    have hdates1 : datesFor (fetch_historical_data p db s a b false bd).1.price_history s
        = List.range' a (b + 1 - a) := by
      rw [hprice]
      have hmap : ((List.range' a (b + 1 - a)).map
            (fun d => (⟨s, d, f d⟩ : Row)))
          = ((List.range' a (b + 1 - a)).map
              (fun d => (⟨d, f d⟩ : PricePoint))).map
                (fun q => (⟨s, q.pdate, q.close⟩ : Row)) := by
        rw [List.map_map]
        rfl
      have h0 : datesFor db.price_history s = [] := by
        rw [datesFor, hempty]
        rfl
      rw [hmap, datesFor_append_same, h0, List.nil_append, List.map_map]
      have hfn : ((fun p => p.pdate) ∘ fun d => (⟨d, f d⟩ : PricePoint))
          = fun d => d := rfl
      rw [hfn]
      exact List.map_id' _
    have hn : 0 < b + 1 - a := by omega
    have hmin : listMinN (datesFor
        (fetch_historical_data p db s a b false bd).1.price_history s) = some a := by
      rw [hdates1]
      exact listMinN_eq _ a
        (List.mem_range'_1.mpr ⟨le_refl a, by omega⟩)
        (fun y hy => (List.mem_range'_1.mp hy).1)
    have hmax : listMaxN (datesFor
        (fetch_historical_data p db s a b false bd).1.price_history s) = some b := by
      rw [hdates1]
      exact listMaxN_eq _ b
        (List.mem_range'_1.mpr ⟨Nat.le_of_lt hab, by omega⟩)
        (fun y hy => by have := (List.mem_range'_1.mp hy).2; omega)
    have hr2 : get_date_ranges_to_fetch
        (fetch_historical_data p db s a b false bd).1 s a b = [] := by
      simp only [get_date_ranges_to_fetch, hmin, hmax]
      rw [if_neg (lt_irrefl a), if_neg (lt_irrefl b)]
      rfl
    constructor
    · generalize hdb1 : (fetch_historical_data p db s a b false bd).1 = db1 at hr2 ⊢
      unfold fetch_historical_data
      simp only [Bool.false_eq_true, if_false]
      rw [hr2]
      rw [if_pos (by simp)]
    · rw [fetch_returns_read p db s a b false bd]
      generalize hdb1 : (fetch_historical_data p db s a b false bd).1 = db1 at hr2 ⊢
      unfold fetch_historical_data
      simp only [Bool.false_eq_true, if_false]
      rw [hr2]
      rw [if_pos (by simp)]
  · have h1 := fetch_noop p db s a b bd hempty hab
    have h2 : fetch_historical_data p
        ((fetch_historical_data p db s a b false bd).1) s a b false bd
        = (db, 0, get_historical_data db s a b) := by
      rw [h1]
      exact fetch_noop p db s a b bd hempty hab
    rw [h2, h1]
    exact ⟨rfl, rfl⟩

/-- Witness for the amended C6: empty store, total provider, window `[3,5]`,
batch size 100. -/
theorem claim_C6_amended_witness :
    (fetch_historical_data pC6
        ((fetch_historical_data pC6 emptyDB "A" 3 5 false 100).1)
        "A" 3 5 false 100).2.1 = 0
    ∧ (fetch_historical_data pC6
        ((fetch_historical_data pC6 emptyDB "A" 3 5 false 100).1)
        "A" 3 5 false 100).2.2
      = (fetch_historical_data pC6 emptyDB "A" 3 5 false 100).2.2 :=
  claim_C6_amended pC6 (fun _ => 0) emptyDB "A" 3 5 100
    (fun x y => rfl) rfl (by omega)

/-! ## Claim C10: `compare_to_benchmark` preserves the input frame -/

theorem insertSorted_perm (r : Row) :
    ∀ l : List Row, List.Perm (insertSorted r l) (r :: l) := by
  intro l
  induction l with
  | nil => exact List.Perm.refl _
  | cons x xs ih =>
    unfold insertSorted
    by_cases h : r.pdate ≤ x.pdate
    · rw [if_pos h]
    · rw [if_neg h]
      exact (List.Perm.cons x ih).trans (List.Perm.swap r x xs)

theorem sortByDate_perm : ∀ l : List Row, List.Perm (sortByDate l) l := by
  intro l
  induction l with
  | nil => exact List.Perm.refl _
  | cons x xs ih =>
    have : sortByDate (x :: xs) = insertSorted x (sortByDate xs) := rfl
    rw [this]
    exact (insertSorted_perm x (sortByDate xs)).trans (List.Perm.cons x ih)

theorem get_historical_data_symbol (db : DB) (s : String) (a b : Nat) :
    ∀ r ∈ get_historical_data db s a b, r.symbol = s := by
  intro r hr
  unfold get_historical_data at hr
  have hmem := (sortByDate_perm _).mem_iff.mp hr
  have hp := (List.mem_filter.mp hmem).2
  rw [Bool.and_eq_true, Bool.and_eq_true, beq_iff_eq] at hp
  exact hp.1.1

theorem get_historical_data_keysNodup (db : DB) (s : String) (a b : Nat)
    (hkeys : (db.price_history.map (fun r => (r.symbol, r.pdate))).Nodup) :
    ((get_historical_data db s a b).map
      (fun r => (r.symbol, r.pdate))).Nodup := by
  unfold get_historical_data
  rw [((sortByDate_perm _).map (fun r => (r.symbol, r.pdate))).nodup_iff]
  exact hkeys.sublist ((List.filter_sublist _).map _)

theorem dates_nodup_of_same_symbol :
    ∀ (l : List Row) (s : String), (∀ r ∈ l, r.symbol = s) →
      (l.map (fun r => (r.symbol, r.pdate))).Nodup →
      (l.map (fun r => r.pdate)).Nodup := by
  intro l
  induction l with
  | nil => intro s _ _; simp
  | cons r rs ih =>
    intro s hall hnd
    simp only [List.map_cons, List.nodup_cons] at hnd ⊢
    refine ⟨?_, ih s (fun x hx => hall x (List.mem_cons_of_mem _ hx)) hnd.2⟩
    intro hmem
    obtain ⟨r', hr', hd⟩ := List.mem_map.mp hmem
    apply hnd.1
    have h1 : r.symbol = s := hall r (List.mem_cons_self _ _)
    have h2 : r'.symbol = s := hall r' (List.mem_cons_of_mem _ hr')
    have heq : (r'.symbol, r'.pdate) = (r.symbol, r.pdate) := by
      rw [h1, h2, hd]
    rw [← heq]
    exact List.mem_map_of_mem _ hr'

theorem get_historical_data_datesNodup (db : DB) (s : String) (a b : Nat)
    (hkeys : (db.price_history.map (fun r => (r.symbol, r.pdate))).Nodup) :
    ((get_historical_data db s a b).map (fun r => r.pdate)).Nodup :=
  dates_nodup_of_same_symbol _ s (get_historical_data_symbol db s a b)
    (get_historical_data_keysNodup db s a b hkeys)

theorem filter_date_len_le_one (bd : List Row)
    (hnd : (bd.map (fun r => r.pdate)).Nodup) (d : Nat) :
    (bd.filter (fun r => r.pdate == d)).length ≤ 1 := by
  induction bd with
  | nil => simp
  | cons r rs ih =>
    simp only [List.map_cons, List.nodup_cons] at hnd
    rw [List.filter_cons]
    by_cases h : r.pdate = d
    · rw [if_pos (by simp [h])]
      have hnil : rs.filter (fun r => r.pdate == d) = [] := by
        rw [List.filter_eq_nil_iff]
        intro r' hr' hcontra
        rw [beq_iff_eq] at hcontra
        apply hnd.1
        rw [h, ← hcontra]
        exact List.mem_map_of_mem _ hr'
      rw [hnil]
      simp
    · rw [if_neg (by simp [h])]
      exact ih hnd.2

theorem leftMerge_fst (bd : List Row)
    (hnd : (bd.map (fun r => r.pdate)).Nodup) :
    ∀ perf : List PerfRow,
      (leftMergeBench perf bd).map (fun m => m.1) = perf := by
  intro perf
  induction perf with
  | nil => rfl
  | cons pr perf ih =>
    unfold leftMergeBench
    rw [List.flatMap_cons, List.map_append]
    have hblock : ((if (bd.filter (fun r => r.pdate == pr.pdate)).isEmpty
          then [(pr, (none : Option ℚ))]
          else (bd.filter (fun r => r.pdate == pr.pdate)).map
            (fun r => (pr, some r.close))).map (fun m => m.1)) = [pr] := by
      by_cases hms : (bd.filter (fun r => r.pdate == pr.pdate)).isEmpty
      · rw [if_pos hms]
        rfl
      · rw [if_neg hms]
        have hlen : (bd.filter (fun r => r.pdate == pr.pdate)).length = 1 := by
          have h1 := filter_date_len_le_one bd hnd pr.pdate
          have h2 : (bd.filter (fun r => r.pdate == pr.pdate)) ≠ [] := by
            intro hc
            rw [List.isEmpty_iff] at hms
            exact hms hc
          have h3 : 0 < (bd.filter (fun r => r.pdate == pr.pdate)).length :=
            List.length_pos.mpr h2
          omega
        obtain ⟨x, hx⟩ := List.length_eq_one.mp hlen
        rw [hx]
        rfl
    rw [hblock]
    exact congrArg (List.cons pr) (by exact ih)

theorem mkCompRows_base (c0 : Option ℚ) :
    ∀ (xs : List (PerfRow × Option ℚ)) (ys : List FVal),
      xs.length = ys.length →
      (mkCompRows c0 xs ys).map (fun c => c.base) = xs.map (fun m => m.1) := by
  intro xs
  induction xs with
  | nil => intro ys _; cases ys <;> rfl
  | cons x xs ih =>
    intro ys h
    cases ys with
    | nil => simp at h
    | cons y ys =>
      obtain ⟨pr, c⟩ := x
      simp only [mkCompRows, List.map_cons]
      rw [ih ys (by simpa using h)]

theorem pctChangeF_length (cs : List (Option ℚ)) :
    (pctChangeF cs).length = cs.length := by
  simp [pctChangeF]

/-- C10: whenever the store holds benchmark rows over the performance
frame's date span, `compare_to_benchmark` merges (`how='left'`, unique
benchmark dates under the primary key) and returns exactly one output row
per input row, in the same order, with every original column — date,
component values, `total_value`, `daily_return`, `cumulative_return` —
unchanged; only the benchmark/alpha columns are added. -/
theorem claim_C10_frame_preserved (p : QuoteProvider) (db : DB)
    (perf : List PerfRow) (benchmark_symbol : String)
    (hne : perf ≠ [])
    (hkeys : (db.price_history.map (fun r => (r.symbol, r.pdate))).Nodup)
    (hbd : get_historical_data db benchmark_symbol
        ((listMinN (perf.map (fun r => r.pdate))).getD 0)
        ((listMaxN (perf.map (fun r => r.pdate))).getD 0) ≠ []) :
    ∃ out, compare_to_benchmark p db perf benchmark_symbol = .inr out ∧
      out.length = perf.length ∧
      out.map (fun c => c.base) = perf := by
  have hE : (get_historical_data db benchmark_symbol
      ((listMinN (perf.map (fun r => r.pdate))).getD 0)
      ((listMaxN (perf.map (fun r => r.pdate))).getD 0)).isEmpty = false := by
    rw [Bool.eq_false_iff]
    intro htrue
    exact hbd (List.isEmpty_iff.mp htrue)
  have hnd : ((get_historical_data db benchmark_symbol
      ((listMinN (perf.map (fun r => r.pdate))).getD 0)
      ((listMaxN (perf.map (fun r => r.pdate))).getD 0)).map
        (fun r => r.pdate)).Nodup :=
    get_historical_data_datesNodup db benchmark_symbol _ _ hkeys
  unfold compare_to_benchmark
  simp only [hE, Bool.false_eq_true, if_false]
  refine ⟨_, rfl, ?_, ?_⟩
  · have hbase : (mergeAndCompute perf (get_historical_data db benchmark_symbol
        ((listMinN (perf.map (fun r => r.pdate))).getD 0)
        ((listMaxN (perf.map (fun r => r.pdate))).getD 0))).map
          (fun c => c.base) = perf := by
      unfold mergeAndCompute
      rw [mkCompRows_base _ _ _ (by rw [pctChangeF_length, List.length_map])]
      exact leftMerge_fst _ hnd perf
    have := congrArg List.length hbase
    simpa using this
  · unfold mergeAndCompute
    rw [mkCompRows_base _ _ _ (by rw [pctChangeF_length, List.length_map])]
    exact leftMerge_fst _ hnd perf

/-- Concrete inputs for the C10 witness. -/
def perfC10 : List PerfRow :=
  [⟨5, 0, 0, 0, 100, none, 0⟩, ⟨6, 0, 0, 0, 110, some 10, 10⟩]

def dbC10 : DB := ⟨[⟨"B", 5, 1⟩, ⟨"B", 6, 2⟩], []⟩

/-- Witness for C10 on a two-row frame with stored benchmark data. -/
theorem claim_C10_frame_preserved_witness :
    ∃ out, compare_to_benchmark pC6 dbC10 perfC10 "B" = .inr out ∧
      out.length = perfC10.length ∧
      out.map (fun c => c.base) = perfC10 :=
  claim_C10_frame_preserved pC6 dbC10 perfC10 "B" (by decide) (by decide)
    (by decide)

end PortfolioTracker
